import Mathlib

/-!
Shallow embedding of `lab2.cpp` (parallel any-of benchmark) and proofs of the
specification claims about it.

The embedded functions follow the C++ source:
* `ParallelAnyOf` models `bool ParallelAnyOf(const vector<int>&, int, function<bool(int)>)`;
* `launchedWorkers` / `runWorkers` model the partition loop, the per-thread
  writes `results[i] = any_of(...)`, and the final reduction over `results`;
* `buildKValues` / `evaluatedKs` / `runSweep` model the K-sweep in
  `AnalyzePerformanceForCase` (durations are modelled as exact rationals, with
  `⊤ : WithTop ℚ` standing for the `numeric_limits<double>::max()` sentinel);
* `MeasureExecutionTime` models the timing harness over an abstract stream of
  clock readings;
* `rejectTarget` / `fillRandomNonTarget` / the three initializers model the
  data generators over an abstract stream of random draws, with a fuel bound
  standing for the (unbounded) rejection `do ... while` loop.
-/

namespace Lab2

/-- Outcomes of a `ParallelAnyOf` call that does not return normally.
`divByZero` stands for the undefined behaviour of `(dataSize + K - 1) / K`
when `K = 0`; `lengthError` stands for the exception thrown by
`vector<bool> results(K, false)` when the negative `K` wraps around to a huge
`size_t`; `preconditionFailure` is the explicit signalled error demanded by the
spec — the source never produces it, which is what claims C3 and C10 probe. -/
inductive EngineError where
  | divByZero
  | lengthError
  | preconditionFailure
deriving DecidableEq

/-- Embeds `const int TARGET_VALUE = 2;`. -/
def TARGET_VALUE : ℤ := 2

/-- Embeds `bool IsTarget(int x) { return x == TARGET_VALUE; }`. -/
def IsTarget (x : ℤ) : Bool := x == TARGET_VALUE

/-- Embeds `size_t chunkSize = (dataSize + K - 1) / K;` (for `K ≥ 1`, where the
`size_t` arithmetic does not wrap). -/
def chunkSizeOf (dataSize K : ℕ) : ℕ := (dataSize + K - 1) / K

/-- A launched worker: its result-slot index `i` and its half-open index range
`[start, end)` over the sequence. -/
abbrev Worker := ℕ × ℕ × ℕ

/-- Embeds the scheduling loop of `ParallelAnyOf`: for `i` in `[0, K)` the
range `[i*chunkSize, min (i*chunkSize + chunkSize) dataSize)` is computed and
the worker is skipped when `start >= end`. -/
def launchedWorkers (dataSize K chunkSize : ℕ) : List Worker :=
  (List.range K).filterMap (fun i =>
    if i * chunkSize ≥ min (i * chunkSize + chunkSize) dataSize then none
    else some (i, i * chunkSize, min (i * chunkSize + chunkSize) dataSize))

/-- The index ranges of the launched workers, in scheduling order. -/
def buildPartitions (dataSize K chunkSize : ℕ) : List (ℕ × ℕ) :=
  (launchedWorkers dataSize K chunkSize).map (fun w => w.2)

/-- Embeds `any_of(vec.begin() + start, vec.begin() + end, predicate)`:
whether some element of `vec` at an index in `[s, e)` satisfies `pred`. -/
def sliceAny (vec : List ℤ) (pred : ℤ → Bool) (s e : ℕ) : Bool :=
  ((vec.drop s).take (e - s)).any pred

/-- What the worker thread `w` stores into its result slot:
`results[i] = any_of(vec.begin() + start, vec.begin() + end, predicate)`. -/
def workerRun (vec : List ℤ) (pred : ℤ → Bool) (w : Worker) : Bool :=
  sliceAny vec pred w.2.1 w.2.2

/-- The contents of the shared `vector<bool> results(K, false)` buffer after
every launched worker has stored its flag (the join barrier), under the
IDEALIZED per-element semantics: each slot is treated as an independently
writable object.  This is the semantics the design relies on; it is NOT the
semantics of the real bit-packed `vector<bool>`, whose word-granular
read-modify-writes are modelled by `racyRun` below. -/
def runWorkers (vec : List ℤ) (pred : ℤ → Bool) (K : ℕ) (ws : List Worker) :
    List Bool :=
  ws.foldl (fun res w => res.set w.1 (workerRun vec pred w)) (List.replicate K false)

/-- Phases of the non-atomic `results[i] = flag` assignment on the bit-packed
`vector<bool>`: the proxy reference first loads the storage word containing
bit `i`, then stores the whole word back with bit `i` replaced. -/
inductive Phase where
  | load
  | store
deriving DecidableEq

/-- Bits per storage word of MSVC's `vector<bool>` (`_Vbase` is a 32-bit
`unsigned int`): bit `i` of the buffer lives in word `i / WORD_BITS`, so two
result slots with equal `i / WORD_BITS` share one memory location. -/
def WORD_BITS : ℕ := 32

/-- The storage word of the packed buffer holding bit positions
`[WORD_BITS * j, WORD_BITS * j + WORD_BITS)`. -/
def loadWord (mem : List Bool) (j : ℕ) : List Bool :=
  (mem.drop (WORD_BITS * j)).take WORD_BITS

/-- Storing a whole word back into the packed buffer: this writes every bit
of the word, not only the storing worker's own bit — the mechanism of the
lost update. -/
def storeWord (mem : List Bool) (j : ℕ) (wrd : List Bool) : List Bool :=
  mem.take (WORD_BITS * j) ++ wrd ++ mem.drop (WORD_BITS * j + WORD_BITS)

/-- One scheduler step of the racy execution: event `(t, phase)` lets worker
`ws[t]` perform the load half or the store half of its unsynchronized
`results[i] = any_of(...)` assignment.  The state is the packed buffer
together with each worker's loaded word snapshot. -/
def racyStep (vec : List ℤ) (pred : ℤ → Bool) (ws : List Worker)
    (st : List Bool × List (Option (List Bool))) (ev : ℕ × Phase) :
    List Bool × List (Option (List Bool)) :=
  match ws.get? ev.1 with
  | none => st
  | some w =>
    match ev.2 with
    | .load => (st.1, st.2.set ev.1 (some (loadWord st.1 (w.1 / WORD_BITS))))
    | .store =>
      match st.2.getD ev.1 none with
      | none => st
      | some snapshot =>
        (storeWord st.1 (w.1 / WORD_BITS)
          (snapshot.set (w.1 % WORD_BITS) (workerRun vec pred w)), st.2)

/-- The final contents of the packed `results` buffer after the scheduler
executes the workers' load/store halves in the order given by `sched`. -/
def racyRun (vec : List ℤ) (pred : ℤ → Bool) (ws : List Worker) (K : ℕ)
    (sched : List (ℕ × Phase)) : List Bool :=
  (sched.foldl (racyStep vec pred ws)
    (List.replicate K false, List.replicate ws.length none)).1

/-- A legal interleaving of `n` workers: every event belongs to a worker,
and each worker loads exactly once and stores exactly once, its load coming
before its store.  The unsynchronized threads give the scheduler a free
choice among all such interleavings. -/
def IsInterleaving (n : ℕ) (sched : List (ℕ × Phase)) : Prop :=
  (∀ e ∈ sched, e.1 < n) ∧
  ∀ t, t < n → sched.count (t, Phase.load) = 1 ∧
    sched.count (t, Phase.store) = 1 ∧
    sched.indexOf (t, Phase.load) < sched.indexOf (t, Phase.store)

/-- `ParallelAnyOf` with the `results` buffer given the real `vector<bool>`
word-granular read-modify-write semantics, under the thread interleaving
`sched`; the guards are those of `ParallelAnyOf`.  The per-element model
`runWorkers` corresponds to the interleavings in which no two workers'
load/store pairs overlap. -/
def ParallelAnyOfRacy (vec : List ℤ) (K : ℤ) (pred : ℤ → Bool)
    (sched : List (ℕ × Phase)) : Except EngineError Bool :=
  let dataSize := vec.length
  if dataSize = 0 then .ok false
  else if K < 0 then .error .lengthError
  else if K = 0 then .error .divByZero
  else
    let k := K.toNat
    let c := chunkSizeOf dataSize k
    let ws := launchedWorkers dataSize k c
    .ok ((racyRun vec pred ws k sched).any (fun b => b))

/-- Embeds `bool ParallelAnyOf(const vector<int>& vec, int K,
function<bool(int)> predicate)`.  The empty sequence returns `false` before
`K` is ever used; a negative `K` makes `vector<bool> results(K, false)` throw
(`lengthError`); `K = 0` makes `(dataSize + K - 1) / K` divide by zero
(`divByZero`); otherwise the workers are launched and the result is the OR
over the `results` buffer. -/
def ParallelAnyOf (vec : List ℤ) (K : ℤ) (pred : ℤ → Bool) :
    Except EngineError Bool :=
  let dataSize := vec.length
  if dataSize = 0 then .ok false
  else if K < 0 then .error .lengthError
  else if K = 0 then .error .divByZero
  else
    let k := K.toNat
    let c := chunkSizeOf dataSize k
    let ws := launchedWorkers dataSize k c
    .ok ((runWorkers vec pred k ws).any (fun b => b))

/-- Embeds `MeasureExecutionTime`: the clock is read immediately before and
immediately after the measured operation, and the returned duration is the
difference of the two readings in seconds.  `clock` is the abstract stream of
successive readings of the C++ clock; the call occupies readings `t` and
`t + 1`. -/
def MeasureExecutionTime (clock : ℕ → ℚ) (t : ℕ) : ℚ := clock (t + 1) - clock t

/-- Embeds the candidate-K construction of `AnalyzePerformanceForCase`:
`{1}`, then every `K` from `2` to `maxThreads`, then (when `maxThreads > 1`)
`maxThreads * 2` and `max (maxThreads * 4) 8`, then `sort` and adjacent
`unique`.  `std::sort` is modelled by `insertionSort` (any correct ascending
sort computes the same list) and `std::unique` by `destutter (· ≠ ·)`. -/
def buildKValues (maxThreads : ℕ) : List ℕ :=
  let maxK := max (maxThreads * 4) 8
  let base : List ℕ := 1 :: List.range' 2 (maxThreads - 1)
  let withExtras := if 1 < maxThreads then base ++ [maxThreads * 2, maxK] else base
  List.destutter (· ≠ ·) (List.insertionSort (· ≤ ·) withExtras)

/-- Modelled from the spec's words (for the refinement claim C5): the
candidate K-set as a set — `{1} ∪ {2..P} ∪ (if P > 1 then {2P, max(4P, 8)}
else ∅)` — listed in ascending order without duplicates. -/
def specCandidateKSet (P : ℕ) : Finset ℕ :=
  {1} ∪ Finset.Icc 2 P ∪ (if 1 < P then {2 * P, max (4 * P) 8} else ∅)

/-- The spec-side candidate list: the ascending duplicate-free enumeration of
`specCandidateKSet`. -/
def specCandidateKs (P : ℕ) : List ℕ :=
  (specCandidateKSet P).sort (· ≤ ·)

/-- Embeds the skip test of the K-sweep loop:
`if ((size_t)K > vec.size() && K > maxThreads * 2) continue;` — the candidate
values that are actually evaluated. -/
def evaluatedKs (dataSize maxThreads : ℕ) : List ℕ :=
  (buildKValues maxThreads).filter
    (fun K => !(decide (K > dataSize) && decide (K > maxThreads * 2)))

/-- Embeds the best-of-3 inner loop: `minTime` starts at
`numeric_limits<double>::max()` (modelled by `⊤`) and is folded with `min`
over the three measured durations. -/
def recordedDuration (t : ℚ × ℚ × ℚ) : WithTop ℚ :=
  min (min (min ⊤ (t.1 : WithTop ℚ)) (t.2.1 : WithTop ℚ)) (t.2.2 : WithTop ℚ)

/-- Embeds one iteration of the K loop: `if (minTime < bestTime) { bestTime =
minTime; bestK = K; }` applied to the accumulator `(bestTime, bestK)`. -/
def sweepStep (best : WithTop ℚ × ℕ) (entry : ℕ × (ℚ × ℚ × ℚ)) : WithTop ℚ × ℕ :=
  if recordedDuration entry.2 < best.1 then (recordedDuration entry.2, entry.1) else best

/-- Embeds the whole K loop of `AnalyzePerformanceForCase`: fold `sweepStep`
over the evaluated entries — each entry is a candidate `K` with its three
measured durations — starting from `bestTime = DBL_MAX` (`⊤`), `bestK = 0`. -/
def runSweep (entries : List (ℕ × (ℚ × ℚ × ℚ))) : WithTop ℚ × ℕ :=
  entries.foldl sweepStep (⊤, 0)

/-- Embeds the rejection loop of `FillRandomNonTarget`:
`do { x = distrib(Random::engine()); } while (x == TARGET_VALUE);`.
`draws` is the abstract stream of values produced by the random engine and
`i` the position of the next unconsumed draw; the result is the accepted
value together with the next stream position.  `fuel` bounds the number of
draws; `none` models the loop not terminating within the bound. -/
def rejectTarget (draws : ℕ → ℤ) : ℕ → ℕ → Option (ℤ × ℕ)
  | _, 0 => none
  | i, fuel + 1 =>
    if draws i = TARGET_VALUE then rejectTarget draws (i + 1) fuel
    else some (draws i, i + 1)

/-- Embeds `FillRandomNonTarget`: each of the `n` elements in turn is produced
by the rejection loop, consuming the shared stream of draws left to right. -/
def fillRandomNonTarget (draws : ℕ → ℤ) (fuel : ℕ) : ℕ → ℕ → Option (List ℤ)
  | _, 0 => some []
  | i, n + 1 =>
    match rejectTarget draws i fuel with
    | none => none
    | some (x, j) => (fillRandomNonTarget draws fuel j n).map (fun rest => x :: rest)

/-- Embeds `InitializeWorstCase`: a sequence with no target value anywhere. -/
def InitializeWorstCase (draws : ℕ → ℤ) (fuel dataSize : ℕ) : Option (List ℤ) :=
  fillRandomNonTarget draws fuel 0 dataSize

/-- Embeds `InitializeBestCase`: after the non-target fill,
`if (dataSize > 0) vec[0] = TARGET_VALUE;`. -/
def InitializeBestCase (draws : ℕ → ℤ) (fuel dataSize : ℕ) : Option (List ℤ) :=
  (fillRandomNonTarget draws fuel 0 dataSize).map
    (fun v => if 0 < dataSize then v.set 0 TARGET_VALUE else v)

/-- Embeds `InitializeAverageCase`: after the non-target fill,
`if (dataSize > 0) vec[dataSize / 2] = TARGET_VALUE;`. -/
def InitializeAverageCase (draws : ℕ → ℤ) (fuel dataSize : ℕ) : Option (List ℤ) :=
  (fillRandomNonTarget draws fuel 0 dataSize).map
    (fun v => if 0 < dataSize then v.set (dataSize / 2) TARGET_VALUE else v)

/-- The placement property asserted by claim C8 for the three scenario
initializers at size `N`: the worst-case array contains the target nowhere,
the best-case array contains it exactly at index `0`, and the average-case
array exactly at index `N / 2`. -/
def InitializerSpec (N : ℕ) (vw vb va : List ℤ) : Prop :=
  (vw.length = N ∧ ∀ x ∈ vw, x ≠ TARGET_VALUE) ∧
  (vb.length = N ∧ ∀ j (h : j < vb.length),
    (vb.get ⟨j, h⟩ = TARGET_VALUE ↔ j = 0)) ∧
  (va.length = N ∧ ∀ j (h : j < va.length),
    (va.get ⟨j, h⟩ = TARGET_VALUE ↔ j = N / 2))

/-- `Covers a b l` states that the ranges in `l`, in order, tile the interval
`[a, b)` exactly: each range is non-empty, starts where the previous one
ended, and the last one ends at `b`. -/
def Covers : ℕ → ℕ → List (ℕ × ℕ) → Prop
  | a, b, [] => a = b
  | a, b, p :: rest => p.1 = a ∧ a < p.2 ∧ Covers p.2 b rest

/-- The partition invariants asserted by claim C2 for the partitions the
engine builds for a given `(N, K)`: lengths sum to `N`, pairwise disjointness,
contiguity in scheduling order, and exactly-once coverage of `[0, N)`. -/
def PartitionCoverSpec (N K : ℕ) : Prop :=
  let P := buildPartitions N K (chunkSizeOf N K)
  ((P.map (fun p => p.2 - p.1)).sum = N) ∧
  P.Pairwise (fun p q => p.2 ≤ q.1) ∧
  (∀ j (h : j + 1 < P.length), (P.get ⟨j, Nat.lt_of_succ_lt h⟩).2 = (P.get ⟨j + 1, h⟩).1) ∧
  (∀ x, x < N ↔ ∃ p ∈ P, p.1 ≤ x ∧ x < p.2)

end Lab2

namespace Lab2

/-- Auxiliary: a `filterMap` that never rejects is a `map`. -/
theorem filterMap_eq_map_of {α β : Type} (f : α → Option β) (g : α → β) :
    ∀ l : List α, (∀ a ∈ l, f a = some (g a)) → l.filterMap f = l.map g := by
  intro l
  induction l with
  | nil => intro _; rfl
  | cons a t ih =>
    intro h
    rw [List.filterMap_cons, h a (List.mem_cons_self a t), List.map_cons,
      ih fun x hx => h x (List.mem_cons_of_mem a hx)]

/-- Auxiliary ceiling-division bound: `a ≤ b * ⌈a / b⌉`. -/
theorem le_mul_ceilDiv {a b : ℕ} (hb : 1 ≤ b) : a ≤ b * ((a + b - 1) / b) := by
  have h1 := Nat.div_add_mod (a + b - 1) b
  have h2 : (a + b - 1) % b < b := Nat.mod_lt _ hb
  omega

/-- Auxiliary ceiling-division bound: `⌈a / c⌉ ≤ K` when `a ≤ K * c`. -/
theorem ceilDiv_le {a K c : ℕ} (hc : 1 ≤ c) (h : a ≤ K * c) : (a + c - 1) / c ≤ K := by
  have h1 : a + c - 1 ≤ c * K + (c - 1) := by
    have : K * c = c * K := Nat.mul_comm K c
    omega
  calc (a + c - 1) / c ≤ (c * K + (c - 1)) / c := Nat.div_le_div_right h1
    _ = K + (c - 1) / c := Nat.mul_add_div hc K (c - 1)
    _ = K := by rw [Nat.div_eq_of_lt (by omega)]; rfl

/-- Auxiliary ceiling-division bound: indices below `⌈N / c⌉` start below `N`. -/
theorem mul_lt_of_lt_ceilDiv {N c : ℕ} (hc : 1 ≤ c) {i : ℕ}
    (hi : i < (N + c - 1) / c) : i * c < N := by
  have h1 : (N + c - 1) / c * c ≤ N + c - 1 := Nat.div_mul_le_self _ _
  have h3 : (i + 1) * c ≤ (N + c - 1) / c * c :=
    Nat.mul_le_mul_right c hi
  rw [Nat.succ_mul] at h3
  omega

/-- Auxiliary: a chain covering `[a, b)` puts `a` at or below `b`. -/
theorem covers_le : ∀ (l : List (ℕ × ℕ)) (a b : ℕ), Covers a b l → a ≤ b := by
  intro l
  induction l with
  | nil => intro a b h; exact h.le
  | cons p rest ih =>
    intro a b h
    exact le_trans (le_of_lt h.2.1) (ih _ _ h.2.2)

/-- Auxiliary: every range of a covering chain lies inside `[a, b)` and is
non-empty. -/
theorem covers_bounds : ∀ (l : List (ℕ × ℕ)) (a b : ℕ), Covers a b l →
    ∀ p ∈ l, a ≤ p.1 ∧ p.1 < p.2 ∧ p.2 ≤ b := by
  intro l
  induction l with
  | nil => intro a b _ p hp; exact absurd hp (List.not_mem_nil p)
  | cons q rest ih =>
    intro a b h p hp
    obtain ⟨hq, hlt, hrest⟩ := h
    rcases List.mem_cons.mp hp with hpq | hpr
    · subst hpq
      exact ⟨hq.ge, hq ▸ hlt, covers_le rest _ _ hrest⟩
    · obtain ⟨h1, h2, h3⟩ := ih _ _ hrest p hpr
      exact ⟨le_trans (le_of_lt hlt) h1, h2, h3⟩

/-- Auxiliary: the lengths of a covering chain sum to the interval length. -/
theorem covers_sum : ∀ (l : List (ℕ × ℕ)) (a b : ℕ), Covers a b l →
    (l.map fun p => p.2 - p.1).sum = b - a := by
  intro l
  induction l with
  | nil =>
    intro a b h
    have hab : a = b := h
    simp [hab]
  | cons p rest ih =>
    intro a b h
    obtain ⟨hp, hlt, hrest⟩ := h
    have hb := covers_le rest _ _ hrest
    rw [List.map_cons, List.sum_cons, ih _ _ hrest, hp]
    omega

/-- Auxiliary: the ranges of a covering chain are pairwise disjoint — each
ends at or before any later one starts. -/
theorem covers_pairwise : ∀ (l : List (ℕ × ℕ)) (a b : ℕ), Covers a b l →
    l.Pairwise fun p q => p.2 ≤ q.1 := by
  intro l
  induction l with
  | nil => intro _ _ _; exact List.Pairwise.nil
  | cons p rest ih =>
    intro a b h
    obtain ⟨_, _, hrest⟩ := h
    exact List.Pairwise.cons (fun q hq => (covers_bounds rest _ _ hrest q hq).1)
      (ih _ _ hrest)

/-- Auxiliary: consecutive ranges of a covering chain are contiguous. -/
theorem covers_chain : ∀ (l : List (ℕ × ℕ)) (a b : ℕ), Covers a b l →
    ∀ j (h : j + 1 < l.length),
      (l.get ⟨j, Nat.lt_of_succ_lt h⟩).2 = (l.get ⟨j + 1, h⟩).1 := by
  intro l
  induction l with
  | nil => intro a b _ j h; exact absurd h (by simp)
  | cons p rest ih =>
    intro a b hc j h
    obtain ⟨hp, hlt, hrest⟩ := hc
    match j with
    | 0 =>
      match rest, hrest with
      | q :: rest2, hrest => exact hrest.1.symm
    | j + 1 =>
      exact ih _ _ hrest j (by simpa using h)

/-- Auxiliary: a covering chain contains an index `x` iff `a ≤ x < b` —
coverage of the interval, with uniqueness following from disjointness. -/
theorem covers_mem : ∀ (l : List (ℕ × ℕ)) (a b : ℕ), Covers a b l →
    ∀ x, (a ≤ x ∧ x < b) ↔ ∃ p ∈ l, p.1 ≤ x ∧ x < p.2 := by
  intro l
  induction l with
  | nil =>
    intro a b h x
    have hab : a = b := h
    subst hab
    simp
  | cons p rest ih =>
    intro a b h x
    obtain ⟨hp, hlt, hrest⟩ := h
    have hb := covers_le rest _ _ hrest
    constructor
    · rintro ⟨hax, hxb⟩
      by_cases hx : x < p.2
      · exact ⟨p, List.mem_cons_self p rest, hp ▸ hax, hx⟩
      · obtain ⟨q, hq, h1, h2⟩ := (ih _ _ hrest x).mp ⟨not_lt.mp hx, hxb⟩
        exact ⟨q, List.mem_cons_of_mem p hq, h1, h2⟩
    · rintro ⟨q, hq, h1, h2⟩
      rcases List.mem_cons.mp hq with hqp | hqr
      · subst hqp
        exact ⟨hp ▸ h1, lt_of_lt_of_le h2 hb⟩
      · have := (ih _ _ hrest x).mpr ⟨q, hqr, h1, h2⟩
        exact ⟨le_trans (le_of_lt hlt) this.1, this.2⟩

/-- Auxiliary: an initial run of `m` chunks of size `c` starting at `j * c`
covers `[j * c, N)` when the first `m` starts are below `N` and the `m`-th
chunk reaches `N`. -/
theorem coversRangeAux (c N : ℕ) (hc : 1 ≤ c) :
    ∀ t j, j * c ≤ N → (∀ i, i < t → (j + i) * c < N) → N ≤ (j + t) * c →
      Covers (j * c) N
        ((List.range' j t).map fun i => (i * c, min (i * c + c) N)) := by
  intro t
  induction t with
  | zero =>
    intro j h1 _ h3
    rw [Nat.add_zero] at h3
    rw [List.range'_zero, List.map_nil]
    show j * c = N
    omega
  | succ t ih =>
    intro j h1 h2 h3
    rw [List.range'_succ, List.map_cons]
    refine ⟨rfl, ?_, ?_⟩
    · have h0 : (j + 0) * c < N := h2 0 (Nat.succ_pos t)
      rw [Nat.add_zero] at h0
      exact lt_min (by omega) h0
    · cases Nat.eq_zero_or_pos t with
      | inl ht0 =>
        subst ht0
        rw [List.range'_zero, List.map_nil]
        show min (j * c + c) N = N
        have h4 : N ≤ j * c + c := by
          have h5 := h3
          rw [show j + (0 + 1) = j + 1 from by omega, Nat.succ_mul] at h5
          exact h5
        exact min_eq_right h4
      | inr htpos =>
        have hj1 : (j + 1) * c < N := by
          have h5 := h2 1 (by omega)
          rwa [show j + 1 = j + 1 from rfl] at h5
        have hmin : min (j * c + c) N = j * c + c :=
          min_eq_left (by rw [← Nat.succ_mul]; exact le_of_lt hj1)
        rw [hmin, show j * c + c = (j + 1) * c from (Nat.succ_mul j c).symm]
        refine ih (j + 1) (le_of_lt hj1) ?_ ?_
        · intro i hi
          have h6 := h2 (i + 1) (by omega)
          rwa [show j + (i + 1) = j + 1 + i from by omega] at h6
        · rwa [show j + (t + 1) = j + 1 + t from by omega] at h3

/-- Auxiliary: for a nonempty sequence the launched workers are exactly the
first `⌈N / c⌉` chunk indices, in order, with their clipped ranges. -/
theorem launchedWorkers_eq (N K : ℕ) (hK : 1 ≤ K) (hN : 1 ≤ N) :
    launchedWorkers N K (chunkSizeOf N K) =
      (List.range' 0 ((N + chunkSizeOf N K - 1) / chunkSizeOf N K)).map
        fun i => (i, i * chunkSizeOf N K,
          min (i * chunkSizeOf N K + chunkSizeOf N K) N) := by
  generalize hcdef : chunkSizeOf N K = c
  have hc : 1 ≤ c := by
    rw [← hcdef]; unfold chunkSizeOf
    exact (Nat.one_le_div_iff (by omega)).mpr (by omega)
  have hKc : N ≤ K * c := by
    rw [← hcdef]; unfold chunkSizeOf
    exact @le_mul_ceilDiv N K (by omega)
  generalize hmdef : (N + c - 1) / c = m
  have hmK : m ≤ K := by rw [← hmdef]; exact ceilDiv_le hc hKc
  have hlt : ∀ i, i < m → i * c < N := fun i hi =>
    mul_lt_of_lt_ceilDiv hc (by rw [hmdef]; exact hi)
  have hge : ∀ i, m ≤ i → N ≤ i * c := fun i hi => by
    have h1 : N ≤ c * m := by rw [← hmdef]; exact @le_mul_ceilDiv N c hc
    calc N ≤ c * m := h1
      _ ≤ c * i := Nat.mul_le_mul_left c hi
      _ = i * c := Nat.mul_comm c i
  unfold launchedWorkers
  rw [List.range_eq_range']
  have hsplit : List.range' 0 K = List.range' 0 m ++ List.range' m (K - m) := by
    have h := List.range'_append 0 m (K - m) 1
    rw [Nat.one_mul, Nat.zero_add, show K - m + m = K from by omega] at h
    exact h.symm
  rw [hsplit, List.filterMap_append]
  rw [filterMap_eq_map_of _
      (fun i => (i, i * c, min (i * c + c) N)) (List.range' 0 m) ?hmap]
  case hmap =>
    intro i hi
    have him : i < m := by
      have h := List.mem_range'_1.mp hi
      omega
    rw [if_neg]
    exact not_le.mpr (lt_min (by omega) (hlt i him))
  rw [List.filterMap_eq_nil_iff.mpr ?hnil, List.append_nil]
  case hnil =>
    intro i hi
    have him : m ≤ i := (List.mem_range'_1.mp hi).1
    rw [if_pos]
    exact le_trans (min_le_right _ _) (hge i him)

/-- Auxiliary: the built partitions tile `[0, N)` exactly, for every `K ≥ 1`
(for `N = 0` no worker is launched and the tiling is empty). -/
theorem covers_buildPartitions (N K : ℕ) (hK : 1 ≤ K) :
    Covers 0 N (buildPartitions N K (chunkSizeOf N K)) := by
  by_cases hN : N = 0
  · subst hN
    have hnil : launchedWorkers 0 K (chunkSizeOf 0 K) = [] := by
      unfold launchedWorkers
      exact List.filterMap_eq_nil_iff.mpr fun i _ => by
        rw [if_pos]
        exact le_trans (min_le_right _ _) (Nat.zero_le _)
    unfold buildPartitions
    rw [hnil, List.map_nil]
    exact rfl
  · have hN1 : 1 ≤ N := by omega
    unfold buildPartitions
    rw [launchedWorkers_eq N K hK hN1, List.map_map]
    generalize hcdef : chunkSizeOf N K = c
    have hc : 1 ≤ c := by
      rw [← hcdef]; unfold chunkSizeOf
      exact (Nat.one_le_div_iff (by omega)).mpr (by omega)
    have hcov := coversRangeAux c N hc ((N + c - 1) / c) 0 (by simp)
      (fun i hi => by
        have h := mul_lt_of_lt_ceilDiv hc (by simpa using hi)
        simpa using h)
      (by
        have h2 := @le_mul_ceilDiv N c hc
        rw [Nat.zero_add, Nat.mul_comm]
        exact h2)
    simpa [Function.comp] using hcov

/-- C2: for every `N ≥ 0` and `K ≥ 1`, the partitions built from
`chunkSize = ⌈N / K⌉` — after discarding the empty ones — cover `[0, N)`
exactly once: lengths sum to `N`, they are pairwise disjoint, consecutive
partitions are contiguous, and an index is covered iff it is below `N`. -/
theorem partitions_cover (N K : ℕ) (hK : 1 ≤ K) : PartitionCoverSpec N K := by
  have hcov := covers_buildPartitions N K hK
  unfold PartitionCoverSpec
  refine ⟨?_, ?_, ?_, ?_⟩
  · have h := covers_sum _ 0 N hcov
    simpa using h
  · exact covers_pairwise _ 0 N hcov
  · exact covers_chain _ 0 N hcov
  · intro x
    have h := covers_mem _ 0 N hcov x
    simpa using h

/-- Witness for C2 at `N = 6`, `K = 2`. -/
theorem partitions_cover_witness : 1 ≤ 2 ∧ PartitionCoverSpec 6 2 :=
  ⟨by omega, partitions_cover 6 2 (by omega)⟩

/-- Auxiliary: the slot index recorded in a launched worker is the loop index
that produced it, so the recorded slots are a sublist of `range K`. -/
theorem map_fst_filterMap_sublist (f : ℕ → Option Worker)
    (h : ∀ i w, f i = some w → w.1 = i) :
    ∀ l : List ℕ, ((l.filterMap f).map fun w => w.1).Sublist l := by
  intro l
  induction l with
  | nil => simp
  | cons a t ih =>
    rw [List.filterMap_cons]
    cases hfa : f a with
    | none => exact ih.cons a
    | some w =>
      rw [List.map_cons, h a w hfa]
      exact ih.cons₂ a

/-- Auxiliary: distinct launched workers own distinct result slots. -/
theorem launchedWorkers_ids_nodup (N K c : ℕ) :
    ((launchedWorkers N K c).map fun w => w.1).Nodup := by
  unfold launchedWorkers
  refine List.Nodup.sublist (map_fst_filterMap_sublist _ ?_ (List.range K))
    (List.nodup_range K)
  intro i w hw
  by_cases hcond : i * c ≥ min (i * c + c) N
  · rw [if_pos hcond] at hw
    exact absurd hw (by simp)
  · rw [if_neg hcond] at hw
    obtain rfl : (i, i * c, min (i * c + c) N) = w := Option.some.inj hw
    rfl

/-- Auxiliary: every launched worker writes a slot inside the `results`
buffer, owns a non-empty range, and reads only below the sequence length. -/
theorem launchedWorkers_mem (N K c : ℕ) :
    ∀ w ∈ launchedWorkers N K c, w.1 < K ∧ w.2.1 < w.2.2 ∧ w.2.2 ≤ N := by
  intro w hw
  unfold launchedWorkers at hw
  obtain ⟨i, hi, hfi⟩ := List.mem_filterMap.mp hw
  by_cases hcond : i * c ≥ min (i * c + c) N
  · rw [if_pos hcond] at hfi
    exact absurd hfi (by simp)
  · rw [if_neg hcond] at hfi
    obtain rfl : (i, i * c, min (i * c + c) N) = w := Option.some.inj hfi
    exact ⟨List.mem_range.mp hi, not_le.mp hcond, min_le_right _ _⟩

/-- Auxiliary: overwriting a slot that currently holds `false` ORs the new
flag into the OR of the buffer. -/
theorem set_any_of_false :
    ∀ (l : List Bool) (i : ℕ) (b : Bool) (h : i < l.length), l.get ⟨i, h⟩ = false →
      (l.set i b).any (fun x => x) = (l.any (fun x => x) || b) := by
  intro l
  induction l with
  | nil => intro i b h; exact absurd h (by simp)
  | cons a t ih =>
    intro i b h hget
    cases i with
    | zero =>
      have ha : a = false := hget
      rw [List.set_cons_zero]
      simp [ha, Bool.or_comm]
    | succ i =>
      have h2 := ih i b (by simpa using h) hget
      rw [List.set_cons_succ]
      simp only [List.any_cons, h2, Bool.or_assoc]

/-- Auxiliary: folding the per-worker slot writes over a buffer whose target
slots all hold `false` ORs every worker flag into the buffer OR — provided
the slots are pairwise distinct and in bounds. -/
theorem foldl_set_any (vec : List ℤ) (pred : ℤ → Bool) :
    ∀ (ws : List Worker) (res : List Bool),
      ((ws.map fun w => w.1).Nodup) → (∀ w ∈ ws, w.1 < res.length) →
      (∀ w ∈ ws, ∀ (h : w.1 < res.length), res.get ⟨w.1, h⟩ = false) →
      (ws.foldl (fun r w => r.set w.1 (workerRun vec pred w)) res).any (fun x => x) =
        (res.any (fun x => x) || ws.any (workerRun vec pred)) := by
  intro ws
  induction ws with
  | nil => intro res _ _ _; simp
  | cons w ws ih =>
    intro res hnodup hlen hfalse
    rw [List.foldl_cons]
    have hw1 : w.1 < res.length := hlen w (List.mem_cons_self w ws)
    have hwget : res.get ⟨w.1, hw1⟩ = false := hfalse w (List.mem_cons_self w ws) hw1
    rw [List.map_cons, List.nodup_cons] at hnodup
    have hids : ∀ v ∈ ws, w.1 ≠ v.1 := by
      intro v hv heq
      exact hnodup.1 (heq ▸ List.mem_map_of_mem (fun u => u.1) hv)
    rw [ih (res.set w.1 (workerRun vec pred w)) hnodup.2
      (fun v hv => by rw [List.length_set]; exact hlen v (List.mem_cons_of_mem w hv))
      (fun v hv h => by
        have h3 : v.1 < res.length := by simpa using h
        have h4 : (res.set w.1 (workerRun vec pred w)).get ⟨v.1, h⟩ =
            res.get ⟨v.1, h3⟩ := by
          rw [List.get_eq_getElem, List.get_eq_getElem]
          exact List.getElem_set_ne (hids v hv) h
        rw [h4]
        exact hfalse v (List.mem_cons_of_mem w hv) h3)]
    rw [set_any_of_false res w.1 _ hw1 hwget, List.any_cons, Bool.or_assoc]

/-- Auxiliary: the freshly constructed `results` buffer ORs to `false`. -/
theorem any_replicate_false : ∀ K : ℕ, (List.replicate K false).any (fun x => x) = false := by
  intro K
  induction K with
  | zero => rfl
  | succ n ihn => rw [List.replicate_succ, List.any_cons, ihn, Bool.or_false]

/-- Auxiliary: the OR over the final `results` buffer equals the OR of the
launched workers' flags (the buffer starts all-`false` and slots are
disjoint and in bounds). -/
theorem runWorkers_any (vec : List ℤ) (pred : ℤ → Bool) (K : ℕ) (ws : List Worker)
    (hnodup : (ws.map fun w => w.1).Nodup) (hlt : ∀ w ∈ ws, w.1 < K) :
    (runWorkers vec pred K ws).any (fun x => x) = ws.any (workerRun vec pred) := by
  unfold runWorkers
  rw [foldl_set_any vec pred ws (List.replicate K false) hnodup
    (fun w hw => by rw [List.length_replicate]; exact hlt w hw)
    (fun w hw h => by simp)]
  rw [any_replicate_false K, Bool.false_or]

/-- Auxiliary: `any_of` over the iterator range `[s, e)` finds an index `i`
in the range whose element satisfies the predicate, and conversely. -/
theorem sliceAny_iff (vec : List ℤ) (pred : ℤ → Bool) (s e : ℕ) :
    sliceAny vec pred s e = true ↔
      ∃ i, s ≤ i ∧ i < e ∧ ∃ (h : i < vec.length), pred (vec.get ⟨i, h⟩) = true := by
  unfold sliceAny
  rw [List.any_eq_true]
  constructor
  · rintro ⟨x, hx, hpx⟩
    obtain ⟨n, hn, hget⟩ := List.mem_iff_getElem.mp hx
    have hlen : n < e - s ∧ s + n < vec.length := by
      rw [List.length_take, List.length_drop] at hn
      omega
    rw [List.getElem_take, List.getElem_drop] at hget
    refine ⟨s + n, by omega, by omega, hlen.2, ?_⟩
    rw [List.get_eq_getElem, hget]
    exact hpx
  · rintro ⟨i, hsi, hie, h, hp⟩
    refine ⟨vec.get ⟨i, h⟩, ?_, hp⟩
    rw [List.mem_iff_getElem]
    have h3 : s + (i - s) = i := by omega
    refine ⟨i - s, by rw [List.length_take, List.length_drop]; omega, ?_⟩
    simp only [List.getElem_take, List.getElem_drop, h3, List.get_eq_getElem]

/-- Auxiliary: `List.any` in terms of indices. -/
theorem any_iff_exists (vec : List ℤ) (pred : ℤ → Bool) :
    vec.any pred = true ↔
      ∃ i, ∃ (h : i < vec.length), pred (vec.get ⟨i, h⟩) = true := by
  rw [List.any_eq_true]
  constructor
  · rintro ⟨x, hx, hp⟩
    obtain ⟨n, hn, hget⟩ := List.mem_iff_getElem.mp hx
    refine ⟨n, hn, ?_⟩
    rw [List.get_eq_getElem, hget]
    exact hp
  · rintro ⟨i, h, hp⟩
    exact ⟨vec.get ⟨i, h⟩,
      List.mem_iff_getElem.mpr ⟨i, h, (List.get_eq_getElem vec ⟨i, h⟩).symm⟩, hp⟩

/-- C10: the empty-sequence test precedes every use of `K`, so the empty
sequence yields `.ok false` for every integer `K`, with no signalled error. -/
theorem emptySequence_ignores_K (K : ℤ) (pred : ℤ → Bool) :
    ParallelAnyOf [] K pred = .ok false := rfl

/-- C3 (code bug witness): the source has no precondition check for `K ≤ 0`.
On the empty sequence `K = -1` returns a normal boolean; on a nonempty
sequence `K = 0` reaches the division by zero and `K = -1` the huge
allocation — neither is the explicit precondition failure the spec demands. -/
theorem kNonpositive_not_failFast :
    ParallelAnyOf [] (-1) IsTarget = .ok false ∧
      ParallelAnyOf [5] 0 IsTarget = .error .divByZero ∧
      ParallelAnyOf [5] (-1) IsTarget = .error .lengthError :=
  ⟨rfl, rfl, rfl⟩

/-- C9: the measured duration is the difference of two successive readings of
the clock, so whenever the clock is monotone (a steady clock) the reported
duration is non-negative. -/
theorem measure_nonneg (clock : ℕ → ℚ) (hmono : Monotone clock) (t : ℕ) :
    0 ≤ MeasureExecutionTime clock t :=
  sub_nonneg.mpr (hmono (Nat.le_succ t))

/-- Witness for C9 at the concrete clock `n ↦ n` and instant `0`. -/
theorem measure_nonneg_witness :
    0 ≤ MeasureExecutionTime (fun n => (n : ℚ)) 0 :=
  measure_nonneg (fun n => (n : ℚ)) Nat.mono_cast 0

/-- C7: a candidate `K` is evaluated by the sweep iff it survives the skip
test — it is skipped exactly when it exceeds both the input size and twice
the hardware parallelism. -/
theorem sweep_skip_condition (dataSize maxThreads K : ℕ) :
    K ∈ evaluatedKs dataSize maxThreads ↔
      K ∈ buildKValues maxThreads ∧ ¬(K > dataSize ∧ K > 2 * maxThreads) := by
  rw [evaluatedKs, List.mem_filter]
  rw [show maxThreads * 2 = 2 * maxThreads from Nat.mul_comm _ _]
  refine and_congr_right fun _ => ?_
  constructor
  · intro hp hcon
    obtain ⟨h1, h2⟩ := hcon
    simp [h1, h2] at hp
  · intro hn
    by_cases h1 : K > dataSize
    · have h2 : ¬K > 2 * maxThreads := fun h2 => hn ⟨h1, h2⟩
      simp [h1, h2]
    · simp [h1]

/-- Auxiliary: when the written slots are pairwise distinct, the final
contents of the `results` buffer do not depend on the order in which the
workers complete — the fold over any permutation of the workers is equal. -/
theorem foldl_set_perm (vec : List ℤ) (pred : ℤ → Bool) :
    ∀ {ws₁ ws₂ : List Worker}, ws₁.Perm ws₂ → ((ws₁.map fun w => w.1).Nodup) →
      ∀ res : List Bool,
        ws₁.foldl (fun r w => r.set w.1 (workerRun vec pred w)) res =
          ws₂.foldl (fun r w => r.set w.1 (workerRun vec pred w)) res := by
  intro ws₁ ws₂ hperm
  induction hperm with
  | nil => intro _ res; rfl
  | cons x p ih =>
    intro hnodup res
    rw [List.foldl_cons, List.foldl_cons]
    exact ih (by rw [List.map_cons, List.nodup_cons] at hnodup; exact hnodup.2) _
  | swap x y l =>
    intro hnodup res
    rw [List.foldl_cons, List.foldl_cons, List.foldl_cons, List.foldl_cons]
    have hxy : y.1 ≠ x.1 := by
      rw [List.map_cons, List.map_cons, List.nodup_cons] at hnodup
      intro heq
      exact hnodup.1 (by rw [heq]; exact List.mem_cons_self _ _)
    rw [List.set_comm (workerRun vec pred y) (workerRun vec pred x) res hxy]
  | trans p₁ p₂ ih₁ ih₂ =>
    intro hnodup res
    rw [ih₁ hnodup res,
      ih₂ ((p₁.map fun w => w.1).nodup_iff.mp hnodup) res]

/-- Auxiliary: in the idealized per-element buffer semantics the launched
workers own pairwise distinct, in-bounds result slots and pairwise disjoint
index ranges, and the final buffer contents are identical for every
completion order — this is the safety argument the design intends, and it is
exactly what the bit-packed `vector<bool>` fails to deliver. -/
theorem slots_disjoint_ideal (vec : List ℤ) (pred : ℤ → Bool) (N K : ℕ)
    (hK : 1 ≤ K) :
    ((launchedWorkers N K (chunkSizeOf N K)).map fun w => w.1).Nodup ∧
    (∀ w ∈ launchedWorkers N K (chunkSizeOf N K), w.1 < K) ∧
    ((launchedWorkers N K (chunkSizeOf N K)).Pairwise fun w v => w.2.2 ≤ v.2.1) ∧
    ∀ ws : List Worker, ws.Perm (launchedWorkers N K (chunkSizeOf N K)) →
      runWorkers vec pred K ws =
        runWorkers vec pred K (launchedWorkers N K (chunkSizeOf N K)) := by
  refine ⟨launchedWorkers_ids_nodup N K _,
    fun w hw => (launchedWorkers_mem N K _ w hw).1, ?_, ?_⟩
  · have hpw := covers_pairwise _ 0 N (covers_buildPartitions N K hK)
    rw [buildPartitions] at hpw
    exact List.pairwise_map.mp hpw
  · intro ws hperm
    unfold runWorkers
    exact foldl_set_perm vec pred hperm
      ((hperm.map fun w => w.1).nodup_iff.mpr (launchedWorkers_ids_nodup N K _)) _

/-- C4 (code bug witness): the claim — no two workers ever perform a
conflicting unsynchronized access to the same memory location — is false of
the program, because `vector<bool>` is bit-packed.  Concretely, for
`vec = [1, 2]`, `K = 2` the two launched workers own the distinct slots `0`
and `1`, yet both slots live in storage word `0 / WORD_BITS = 1 / WORD_BITS`,
so their unsynchronized `results[i] = ...` word read-modify-writes target the
same memory location; under the interleaving `load₀, load₁, store₁, store₀`
worker 0's stale word store erases worker 1's `true` flag (a lost update). -/
theorem workers_race_on_packed_word :
    launchedWorkers 2 2 (chunkSizeOf 2 2) = [(0, 0, 1), (1, 1, 2)] ∧
      (0 : ℕ) / WORD_BITS = 1 / WORD_BITS ∧
      workerRun [1, 2] IsTarget (1, 1, 2) = true ∧
      IsInterleaving 2
        [(0, Phase.load), (1, Phase.load), (1, Phase.store), (0, Phase.store)] ∧
      racyRun [1, 2] IsTarget (launchedWorkers 2 2 (chunkSizeOf 2 2)) 2
        [(0, Phase.load), (1, Phase.load), (1, Phase.store), (0, Phase.store)] =
        [false, false] := by
  exact ⟨rfl, rfl, rfl, by unfold IsInterleaving; decide, rfl⟩

/-- Auxiliary: the candidate list before sort and unique is already strictly
increasing (`1`, then `2..P` in order, then `2P`, then `max(4P, 8)`). -/
theorem preKList_pairwise (P : ℕ) (hP : 1 ≤ P) :
    List.Pairwise (· < ·)
      (if 1 < P then (1 :: List.range' 2 (P - 1)) ++ [P * 2, max (P * 4) 8]
       else 1 :: List.range' 2 (P - 1)) := by
  by_cases h2 : 1 < P
  · rw [if_pos h2, List.pairwise_append]
    refine ⟨?_, ?_, ?_⟩
    · rw [List.pairwise_cons]
      exact ⟨fun x hx => by have := List.mem_range'_1.mp hx; omega,
        List.pairwise_lt_range' 2 (P - 1)⟩
    · refine List.pairwise_cons.mpr ⟨?_, by simp⟩
      intro b hb
      have hb2 : b = max (P * 4) 8 := by simpa using hb
      subst hb2
      omega
    · intro a ha b hb
      have hb2 : b = P * 2 ∨ b = max (P * 4) 8 := by simpa using hb
      have ha2 : a = 1 ∨ a ∈ List.range' 2 (P - 1) := by simpa using ha
      have haP : a ≤ P := by
        rcases ha2 with h | h
        · omega
        · have := List.mem_range'_1.mp h; omega
      rcases hb2 with rfl | rfl <;> omega
  · rw [if_neg h2]
    have hP1 : P = 1 := by omega
    subst hP1
    simp

/-- Auxiliary: since the pre-list is already strictly sorted, the sort leaves
it unchanged and the adjacent-duplicate removal removes nothing. -/
theorem buildKValues_eq_pre (P : ℕ) (hP : 1 ≤ P) :
    buildKValues P =
      (if 1 < P then (1 :: List.range' 2 (P - 1)) ++ [P * 2, max (P * 4) 8]
       else 1 :: List.range' 2 (P - 1)) := by
  unfold buildKValues
  dsimp only
  have hpw := preKList_pairwise P hP
  rw [List.Sorted.insertionSort_eq (hpw.imp fun h => le_of_lt h)]
  exact List.destutter_of_chain' _ _ ((hpw.imp fun h => ne_of_lt h).chain')

/-- Auxiliary: the pre-list has the same members as the spec's candidate
K-set. -/
theorem mem_preKList (P x : ℕ) (hP : 1 ≤ P) :
    (x ∈ (if 1 < P then (1 :: List.range' 2 (P - 1)) ++ [P * 2, max (P * 4) 8]
          else 1 :: List.range' 2 (P - 1))) ↔ x ∈ specCandidateKSet P := by
  unfold specCandidateKSet
  by_cases h2 : 1 < P
  · rw [if_pos h2, if_pos h2]
    rw [show P * 2 = 2 * P from Nat.mul_comm P 2,
      show P * 4 = 4 * P from Nat.mul_comm P 4]
    simp only [List.mem_cons, List.mem_append, List.mem_range'_1,
      List.mem_singleton, List.not_mem_nil, or_false, Finset.mem_union,
      Finset.mem_insert, Finset.mem_singleton, Finset.mem_Icc]
    omega
  · rw [if_neg h2, if_neg h2]
    have hP1 : P = 1 := by omega
    subst hP1
    simp only [List.mem_cons, List.mem_range'_1, List.not_mem_nil, or_false,
      Finset.mem_union, Finset.union_empty, Finset.mem_insert,
      Finset.mem_singleton, Finset.mem_Icc]
    omega

/-- C5: for every hardware concurrency `P ≥ 1`, the candidate K list built by
the sweep equals the ascending duplicate-free enumeration of
`{1} ∪ {2..P} ∪ (if P > 1 then {2P, max(4P, 8)} else ∅)`, and for `P = 4` it
is exactly `[1, 2, 3, 4, 8, 16]`. -/
theorem candidateKSet_spec :
    (∀ P, 1 ≤ P → buildKValues P = specCandidateKs P) ∧
      buildKValues 4 = [1, 2, 3, 4, 8, 16] := by
  constructor
  · intro P hP
    rw [buildKValues_eq_pre P hP]
    unfold specCandidateKs
    refine List.eq_of_perm_of_sorted
      ((List.perm_ext_iff_of_nodup (preKList_pairwise P hP).nodup
        (Finset.sort_nodup _ _)).mpr fun a => ?_)
      ((preKList_pairwise P hP).imp fun h => le_of_lt h)
      (Finset.sort_sorted _ _)
    rw [Finset.mem_sort]
    exact mem_preKList P a hP
  · decide

/-- Witness for C5 at `P = 4`. -/
theorem candidateKSet_spec_witness : 1 ≤ 4 ∧ buildKValues 4 = specCandidateKs 4 :=
  ⟨by omega, candidateKSet_spec.1 4 (by omega)⟩

/-- Auxiliary: under the idealized per-element buffer semantics the
algorithm is correct — for every sequence, predicate and `K ≥ 1` the result
is exactly "some element satisfies the predicate".  This is the intended
guarantee; the bit-packed buffer's word-granular writes defeat it for
multi-worker runs. -/
theorem parallelAnyOf_ideal (vec : List ℤ) (K : ℤ) (pred : ℤ → Bool)
    (hK : 1 ≤ K) : ParallelAnyOf vec K pred = .ok (vec.any pred) := by
  unfold ParallelAnyOf
  dsimp only
  by_cases hlen : vec.length = 0
  · rw [if_pos hlen, List.eq_nil_of_length_eq_zero hlen]
    rfl
  · rw [if_neg hlen, if_neg (by omega), if_neg (by omega)]
    congr 1
    have hk1 : (1 : ℕ) ≤ K.toNat := by omega
    rw [runWorkers_any vec pred K.toNat _
      (launchedWorkers_ids_nodup vec.length K.toNat (chunkSizeOf vec.length K.toNat))
      (fun w hw => (launchedWorkers_mem _ _ _ w hw).1)]
    rw [Bool.eq_iff_iff, List.any_eq_true, any_iff_exists vec pred]
    have hcov := covers_buildPartitions vec.length K.toNat hk1
    constructor
    · rintro ⟨w, hw, hrun⟩
      obtain ⟨i, _, _, h, hp⟩ := (sliceAny_iff vec pred w.2.1 w.2.2).mp hrun
      exact ⟨i, h, hp⟩
    · rintro ⟨i, h, hp⟩
      obtain ⟨p, hp_mem, hp1, hp2⟩ :=
        (covers_mem _ 0 vec.length hcov i).mp ⟨Nat.zero_le i, h⟩
      rw [buildPartitions] at hp_mem
      obtain ⟨w, hw, hwp⟩ := List.mem_map.mp hp_mem
      refine ⟨w, hw, (sliceAny_iff vec pred w.2.1 w.2.2).mpr
        ⟨i, ?_, ?_, h, hp⟩⟩
      · exact hwp ▸ hp1
      · exact hwp ▸ hp2

/-- C1 (code bug witness): the claim — the result is `true` iff some element
matches, for every `K ≥ 1` — is not guaranteed by the program for
multi-worker runs, because the workers race on the bit-packed `results`
buffer.  Concretely, for `vec = [1, 2]`, `K = 2` (element `2` matches, so the
claimed result is `true`): under the legal interleaving
`load₀, load₁, store₁, store₀` the racy execution returns `.ok false` —
worker 0's store writes back a stale word and loses worker 1's `true` —
while the non-overlapping interleaving returns `.ok true`.  The outcome is
schedule-dependent, so the claimed guarantee fails. -/
theorem parallelAnyOf_lost_update :
    (([1, 2] : List ℤ).any IsTarget = true) ∧
      IsInterleaving 2
        [(0, Phase.load), (1, Phase.load), (1, Phase.store), (0, Phase.store)] ∧
      ParallelAnyOfRacy [1, 2] 2 IsTarget
        [(0, Phase.load), (1, Phase.load), (1, Phase.store), (0, Phase.store)] =
        .ok false ∧
      ParallelAnyOfRacy [1, 2] 2 IsTarget
        [(0, Phase.load), (0, Phase.store), (1, Phase.load), (1, Phase.store)] =
        .ok true := by
  exact ⟨rfl, by unfold IsInterleaving; decide, rfl, rfl⟩

/-- Auxiliary: the best-of-3 register — folded from the `DBL_MAX` sentinel —
is the plain minimum of the three durations. -/
theorem recordedDuration_eq (t : ℚ × ℚ × ℚ) :
    recordedDuration t = ((min (min t.1 t.2.1) t.2.2 : ℚ) : WithTop ℚ) := by
  unfold recordedDuration
  rw [min_eq_right le_top, WithTop.coe_min, WithTop.coe_min]

/-- Auxiliary: invariant of the best-`K` fold — the register never grows, and
at the end either nothing beat the initial accumulator, or the register holds
some entry's recorded duration and that duration is minimal. -/
theorem sweepLoop_spec :
    ∀ (l : List (ℕ × (ℚ × ℚ × ℚ))) (acc : WithTop ℚ × ℕ),
      (l.foldl sweepStep acc).1 ≤ acc.1 ∧
        ((l.foldl sweepStep acc) = acc ∧
            (∀ e ∈ l, acc.1 ≤ recordedDuration e.2) ∨
          ∃ e ∈ l, (l.foldl sweepStep acc) = (recordedDuration e.2, e.1) ∧
            ∀ e2 ∈ l, (l.foldl sweepStep acc).1 ≤ recordedDuration e2.2) := by
  intro l
  induction l with
  | nil => intro acc; exact ⟨le_refl _, Or.inl ⟨rfl, by simp⟩⟩
  | cons e l ih =>
    intro acc
    rw [List.foldl_cons]
    obtain ⟨ihle, ihcase⟩ := ih (sweepStep acc e)
    by_cases hlt : recordedDuration e.2 < acc.1
    · have hs : sweepStep acc e = (recordedDuration e.2, e.1) := by
        unfold sweepStep; rw [if_pos hlt]
      rw [hs] at ihle ihcase ⊢
      refine ⟨le_trans ihle (le_of_lt hlt), Or.inr ?_⟩
      rcases ihcase with ⟨heq, hall⟩ | ⟨e2, he2, heq, hall⟩
      · refine ⟨e, List.mem_cons_self e l, heq, ?_⟩
        intro e3 he3
        rcases List.mem_cons.mp he3 with rfl | h3
        · rw [heq]
        · rw [heq]; exact hall e3 h3
      · refine ⟨e2, List.mem_cons_of_mem e he2, heq, ?_⟩
        intro e3 he3
        rcases List.mem_cons.mp he3 with rfl | h3
        · exact ihle
        · exact hall e3 h3
    · have hs : sweepStep acc e = acc := by
        unfold sweepStep; rw [if_neg hlt]
      rw [hs] at ihle ihcase ⊢
      refine ⟨ihle, ?_⟩
      rcases ihcase with ⟨heq, hall⟩ | ⟨e2, he2, heq, hall⟩
      · refine Or.inl ⟨heq, ?_⟩
        intro e3 he3
        rcases List.mem_cons.mp he3 with rfl | h3
        · exact not_lt.mp hlt
        · exact hall e3 h3
      · refine Or.inr ⟨e2, List.mem_cons_of_mem e he2, heq, ?_⟩
        intro e3 he3
        rcases List.mem_cons.mp he3 with rfl | h3
        · exact le_trans ihle (not_lt.mp hlt)
        · exact hall e3 h3

/-- C6: the recorded per-`K` duration is the minimum of the three measured
runs (`[0.05, 0.03, 0.04]` records `0.03`), and on any nonempty entry list
the sweep reports a `K` from the list whose recorded minimum is the global
minimum over all evaluated entries. -/
theorem bestOf3_and_argmin :
    recordedDuration (0.05, 0.03, 0.04) = ((0.03 : ℚ) : WithTop ℚ) ∧
      ∀ entries : List (ℕ × (ℚ × ℚ × ℚ)), entries ≠ [] →
        ∃ e ∈ entries, runSweep entries = (recordedDuration e.2, e.1) ∧
          ∀ e2 ∈ entries, (runSweep entries).1 ≤ recordedDuration e2.2 := by
  constructor
  · rw [recordedDuration_eq, WithTop.coe_eq_coe]
    norm_num [min_def]
  · intro entries hne
    unfold runSweep
    obtain ⟨_, hcase⟩ := sweepLoop_spec entries (⊤, 0)
    rcases hcase with ⟨_, hall⟩ | ⟨e, he, heq, hall⟩
    · obtain ⟨e, he⟩ := List.exists_mem_of_ne_nil entries hne
      have h1 := hall e he
      rw [recordedDuration_eq] at h1
      exact absurd (top_le_iff.mp h1) WithTop.coe_ne_top
    · exact ⟨e, he, heq, hall⟩

/-- Witness for C6 on the one-entry list with the spec's example durations. -/
theorem bestOf3_and_argmin_witness :
    (([(1, ((0.05 : ℚ), (0.03 : ℚ), (0.04 : ℚ)))] : List (ℕ × (ℚ × ℚ × ℚ))) ≠ []) ∧
      ∃ e ∈ ([(1, ((0.05 : ℚ), (0.03 : ℚ), (0.04 : ℚ)))] : List (ℕ × (ℚ × ℚ × ℚ))),
        runSweep [(1, ((0.05 : ℚ), (0.03 : ℚ), (0.04 : ℚ)))] =
            (recordedDuration e.2, e.1) ∧
          ∀ e2 ∈ ([(1, ((0.05 : ℚ), (0.03 : ℚ), (0.04 : ℚ)))] :
              List (ℕ × (ℚ × ℚ × ℚ))),
            (runSweep [(1, ((0.05 : ℚ), (0.03 : ℚ), (0.04 : ℚ)))]).1 ≤
              recordedDuration e2.2 :=
  ⟨by simp, bestOf3_and_argmin.2 _ (by simp)⟩

/-- Auxiliary: the rejection loop never returns the target value. -/
theorem rejectTarget_ne (draws : ℕ → ℤ) :
    ∀ fuel i x j, rejectTarget draws i fuel = some (x, j) → x ≠ TARGET_VALUE := by
  intro fuel
  induction fuel with
  | zero => intro i x j h; exact absurd h (by simp [rejectTarget])
  | succ fuel ih =>
    intro i x j h
    simp only [rejectTarget] at h
    by_cases hd : draws i = TARGET_VALUE
    · rw [if_pos hd] at h
      exact ih (i + 1) x j h
    · rw [if_neg hd] at h
      obtain rfl : draws i = x := congrArg Prod.fst (Option.some.inj h)
      exact hd

/-- Auxiliary: a successful non-target fill has the requested length and
contains the target value nowhere. -/
theorem fill_spec (draws : ℕ → ℤ) (fuel : ℕ) :
    ∀ n i v, fillRandomNonTarget draws fuel i n = some v →
      v.length = n ∧ ∀ x ∈ v, x ≠ TARGET_VALUE := by
  intro n
  induction n with
  | zero =>
    intro i v h
    obtain rfl : [] = v := Option.some.inj h
    simp
  | succ n ih =>
    intro i v h
    simp only [fillRandomNonTarget] at h
    cases hr : rejectTarget draws i fuel with
    | none => rw [hr] at h; exact absurd h (by simp)
    | some p =>
      obtain ⟨x0, j0⟩ := p
      rw [hr] at h
      dsimp only at h
      cases hf : fillRandomNonTarget draws fuel j0 n with
      | none => rw [hf] at h; exact absurd h (by simp)
      | some rest =>
        rw [hf] at h
        obtain rfl : x0 :: rest = v := by simpa using h
        obtain ⟨hlen, hne⟩ := ih j0 rest hf
        refine ⟨by simp [hlen], ?_⟩
        intro x hx
        rcases List.mem_cons.mp hx with rfl | hx2
        · exact rejectTarget_ne draws fuel i x j0 hr
        · exact hne x hx2

/-- Auxiliary: planting the target at position `p` of a target-free array
makes `p` the unique target position. -/
theorem set_target_spec (v : List ℤ) (hne : ∀ x ∈ v, x ≠ TARGET_VALUE) (p : ℕ)
    (hp : p < v.length) :
    ∀ j (h : j < (v.set p TARGET_VALUE).length),
      ((v.set p TARGET_VALUE).get ⟨j, h⟩ = TARGET_VALUE ↔ j = p) := by
  intro j h
  constructor
  · intro hj
    by_contra hne2
    rw [List.get_eq_getElem] at hj
    rw [List.getElem_set_ne (fun heq => hne2 heq.symm) h] at hj
    exact hne _ (List.getElem_mem _) hj
  · rintro rfl
    rw [List.get_eq_getElem]
    exact List.getElem_set_self h

/-- C8: for every size `N > 0` (and whenever the rejection sampling
terminates), the worst-case initializer yields an array with no target
value, the best-case initializer yields one whose unique target position is
index `0`, and the average-case initializer one whose unique target position
is index `N / 2`. -/
theorem initializers_place_target (draws : ℕ → ℤ) (fuel N : ℕ) (hN : 0 < N)
    (vw vb va : List ℤ)
    (hw : InitializeWorstCase draws fuel N = some vw)
    (hb : InitializeBestCase draws fuel N = some vb)
    (ha : InitializeAverageCase draws fuel N = some va) :
    InitializerSpec N vw vb va := by
  unfold InitializeWorstCase at hw
  unfold InitializeBestCase at hb
  unfold InitializeAverageCase at ha
  rw [hw, Option.map_some'] at hb ha
  rw [if_pos hN] at hb ha
  obtain ⟨hlen, hne⟩ := fill_spec draws fuel N 0 vw hw
  obtain rfl : vw.set 0 TARGET_VALUE = vb := Option.some.inj hb
  obtain rfl : vw.set (N / 2) TARGET_VALUE = va := Option.some.inj ha
  refine ⟨⟨hlen, hne⟩, ⟨by simp [hlen], ?_⟩, ⟨by simp [hlen], ?_⟩⟩
  · exact set_target_spec vw hne 0 (by omega)
  · exact set_target_spec vw hne (N / 2)
      (by rw [hlen]; exact Nat.div_lt_self hN (by omega))

/-- Witness for C8 with the constant draw stream `1`, fuel `1`, `N = 4`. -/
theorem initializers_place_target_witness :
    0 < 4 ∧
      InitializeWorstCase (fun _ => 1) 1 4 = some [1, 1, 1, 1] ∧
      InitializeBestCase (fun _ => 1) 1 4 = some [2, 1, 1, 1] ∧
      InitializeAverageCase (fun _ => 1) 1 4 = some [1, 1, 2, 1] ∧
      InitializerSpec 4 [1, 1, 1, 1] [2, 1, 1, 1] [1, 1, 2, 1] :=
  ⟨by omega, rfl, rfl, rfl,
    initializers_place_target (fun _ => 1) 1 4 (by omega)
      [1, 1, 1, 1] [2, 1, 1, 1] [1, 1, 2, 1] rfl rfl rfl⟩

end Lab2
